import Mathlib

/-!
# Verification of the MCRO PDF Object Hasher ingestion pipeline

A shallow embedding of `src/windows/pdf_object_hasher.py`.  Python strings are
modelled as lists of characters (`Str`), tab-separated files as lists of lines,
and the pipeline state (ledger, processed table, hash-count table, dedup store,
in-flight markers, completion stamps) as an explicit record.  External tools
(`mutool`, `pdfsig`, `exiftool`, `otfinfo`, the SHA-256 library routine and the
system clock) are parameters of the model: the pipeline's behaviour is proved
for every choice of these externals.
-/

namespace PdfHasher

/-- A Python string: a sequence of characters (code points). -/
abbrev Str := List Char

/-- `Str.split(sep)` for a one-character separator, as in Python:
`"".split(t) = [""]`, `"a\tb".split(t) = ["a","b"]`. -/
def splitSep (sep : Char) : Str → List Str
  | [] => [[]]
  | c :: rest =>
    let r := splitSep sep rest
    if c = sep then [] :: r else (c :: r.headD []) :: r.tail

/-- `leadsIn p s` is true when `p` is an initial segment of `s`
(the model's string `startswith`). -/
def leadsIn : Str → Str → Bool
  | [], _ => true
  | _ :: _, [] => false
  | a :: as, b :: bs => a = b && leadsIn as bs

/-- Python `str.lower()`, character by character. -/
def lowerStr (s : Str) : Str := s.map Char.toLower

/-- `Nat` rendered in decimal (Python's `str(n)` / f-string interpolation). -/
def natStr (n : Nat) : Str := Nat.toDigits 10 n

/-- `"\t".join(fields)`. -/
def joinTab (fields : List Str) : Str := (fields.intersperse ['\t']).flatten

/-! ## Basic facts about the string helpers -/

theorem splitSep_ne_nil (sep : Char) (s : Str) : splitSep sep s ≠ [] := by
  cases s with
  | nil => simp [splitSep]
  | cons c rest => simp only [splitSep]; split <;> simp

theorem splitSep_exists_cons (sep : Char) (s : Str) :
    ∃ g gs, splitSep sep s = g :: gs := by
  cases h : splitSep sep s with
  | nil => exact absurd h (splitSep_ne_nil sep s)
  | cons g gs => exact ⟨g, gs, rfl⟩

theorem splitSep_cons_sep (sep : Char) (s : Str) :
    splitSep sep (sep :: s) = [] :: splitSep sep s := by
  simp [splitSep]

theorem splitSep_append_single (sep : Char) (s : Str) :
    splitSep sep (s ++ [sep]) = splitSep sep s ++ [[]] := by
  induction s with
  | nil => simp [splitSep]
  | cons a l ih =>
    obtain ⟨g, gs, h⟩ := splitSep_exists_cons sep l
    simp only [List.cons_append, splitSep, ih, h]
    split <;> simp [ih, h]

theorem splitSep_append_replicate (sep : Char) (s : Str) (k : Nat) :
    splitSep sep (s ++ List.replicate k sep) = splitSep sep s ++ List.replicate k [] := by
  induction k generalizing s with
  | zero => simp
  | succ k ih =>
    have : s ++ List.replicate (k + 1) sep = (s ++ [sep]) ++ List.replicate k sep := by
      simp [List.replicate_succ]
    rw [this, ih, splitSep_append_single]
    simp [List.replicate_succ]

theorem leadsIn_iff_exists (p s : Str) : leadsIn p s = true ↔ ∃ t, s = p ++ t := by
  induction p generalizing s with
  | nil => simp [leadsIn]
  | cons a as ih =>
    cases s with
    | nil => simp [leadsIn]
    | cons b bs =>
      simp only [leadsIn, Bool.and_eq_true, decide_eq_true_eq, ih, List.cons_append,
        List.cons.injEq]
      constructor
      · rintro ⟨rfl, t, rfl⟩; exact ⟨t, rfl, rfl⟩
      · rintro ⟨t, rfl, rfl⟩; exact ⟨rfl, t, rfl⟩

theorem leadsIn_append (p t : Str) : leadsIn p (p ++ t) = true :=
  (leadsIn_iff_exists p (p ++ t)).mpr ⟨t, rfl⟩

/-! ## File-name handling

`PDF_EXT_RE = re.compile(r"\.pdf$", re.IGNORECASE)`; `PDF_EXT_RE.sub("", name)`
removes a final `.pdf` of any letter case. -/

/-- Strip a trailing `.pdf` (case-insensitively), as `PDF_EXT_RE.sub("", name)`. -/
def stripPdfExt (name : Str) : Str :=
  if name.length ≥ 4 ∧ lowerStr (name.drop (name.length - 4)) = ".pdf".data then
    name.take (name.length - 4)
  else name

/-- `parse_mcro_fields`: case number / filing type / filing date from an
`MCRO_*` file name; three blanks otherwise. -/
def parse_mcro_fields (pdf_name : Str) : Str × Str × Str :=
  if leadsIn "MCRO_".data pdf_name = false then ([], [], [])
  else if (splitSep '_' (stripPdfExt pdf_name)).length ≥ 4 then
    ((splitSep '_' (stripPdfExt pdf_name)).getD 1 [],
     (splitSep '_' (stripPdfExt pdf_name)).getD 2 [],
     (splitSep '_' (stripPdfExt pdf_name)).getD 3 [])
  else ([], [], [])

/-- The spec's description of the parsing rule, written from its words: only
when the base name begins with the fixed literal prefix, strip the document
extension, split on underscores, and when at least four tokens exist take
tokens 1, 2, 3 (0-indexed) as the three fields; in every other case all three
fields are empty. -/
def mcroFieldsSpec (pdf_name : Str) : Str × Str × Str :=
  if leadsIn "MCRO_".data pdf_name then
    match splitSep '_' (stripPdfExt pdf_name) with
    | _ :: t1 :: t2 :: t3 :: _ => (t1, t2, t3)
    | _ => ([], [], [])
  else ([], [], [])

theorem parse_mcro_eq_spec (pdf_name : Str) :
    parse_mcro_fields pdf_name = mcroFieldsSpec pdf_name := by
  unfold parse_mcro_fields mcroFieldsSpec
  cases h : leadsIn "MCRO_".data pdf_name with
  | false => simp
  | true =>
    simp only [Bool.true_eq_false, if_false, if_true]
    cases hp : splitSep '_' (stripPdfExt pdf_name) with
    | nil => simp
    | cons a l1 =>
      cases l1 with
      | nil => simp
      | cons b l2 =>
        cases l2 with
        | nil => simp
        | cons c l3 =>
          cases l3 with
          | nil => simp
          | cons d l4 => simp [List.getD]

/-! ## Ledger schema constants and migration (`ensure_layout`) -/

/-- The 22-column header of `objects.tsv` (`OBJECTS_HEADER` in the source). -/
def OBJECTS_HEADER : Str :=
  ("Case Number\tFiling Type\tFiling Date\t" ++
   "SHA256 Hash Value\tPdf File Name\tPdf Internal Object Path\tObject Type\tFont Name\t" ++
   "Sig #1 Common Name\tSig #2 Common Name\tAuthor\tCreator\tSig #3 Common Name\tSig #4 Common Name\t" ++
   "Sig #1 Signing Time\tSig #2 Signing Time\tSig #3 Signing Time\tSig #4 Signing Time\t" ++
   "Sig #1 Byte Ranges\tSig #2 Byte Ranges\tSig #3 Byte Ranges\tSig #4 Byte Ranges").data

/-- The legacy 5-column header (`OLD_HEADER_5` in the source). -/
def OLD_HEADER_5 : Str :=
  "SHA256 Hash Value\tPdf File Name\tPdf Internal Object Path\tObject Type\tFont Name".data

/-- Migration of one legacy data row: `"\t\t\t" + line + "\t" * 14`. -/
def migrateRow (line : Str) : Str :=
  "\t\t\t".data ++ line ++ List.replicate 14 '\t'

/-- The `objects.tsv` part of `ensure_layout`, as a function from the current
file content (`none` = file absent, lines carry no terminators) to the content
after the call.  An absent or empty file receives the 22-column header; a file
whose first line is the legacy header is migrated row by row; any other content
is left untouched. -/
def ensure_layout_objects : Option (List Str) → List Str
  | none => [OBJECTS_HEADER]
  | some [] => [OBJECTS_HEADER]
  | some (first :: rest) =>
    if first = OLD_HEADER_5 then OBJECTS_HEADER :: rest.map migrateRow
    else first :: rest

/-- The migration path writes the whole new content to a temporary file and
renames it over the original: the two filesystem operations it performs. -/
inductive FsOp where
  | writeTmp (content : List Str)
  | renameTmpOverTarget
deriving DecidableEq

/-- The exact operation sequence of the migration branch of `ensure_layout`. -/
def migrationOps (rows : List Str) : List FsOp :=
  [FsOp.writeTmp (OBJECTS_HEADER :: rows.map migrateRow), FsOp.renameTmpOverTarget]

/-- Filesystem semantics of the two operations: state is
(content of the temporary file, content of `objects.tsv`). -/
def applyFsOp (st : Option (List Str) × List Str) : FsOp → Option (List Str) × List Str
  | FsOp.writeTmp c => (some c, st.2)
  | FsOp.renameTmpOverTarget => (none, st.1.getD st.2)

theorem migrateRow_fields (r : Str) :
    splitSep '\t' (migrateRow r) = [[], [], []] ++ splitSep '\t' r ++ List.replicate 14 [] := by
  show splitSep '\t' ('\t' :: '\t' :: '\t' :: (r ++ List.replicate 14 '\t')) = _
  rw [splitSep_cons_sep, splitSep_cons_sep, splitSep_cons_sep, splitSep_append_replicate]
  rfl

/-! ## Hash-count aggregation (`update_hash_counts`) -/

/-- Column 4 of a ledger line, when the line has at least four tab-separated
parts and that part is nonempty (`len(parts) >= 4 and parts[3]`). -/
def lineHash (line : Str) : Option Str :=
  if (splitSep '\t' line).length ≥ 4 ∧ (splitSep '\t' line).getD 3 [] ≠ [] then
    some ((splitSep '\t' line).getD 3 [])
  else none

/-- Every counted hash occurrence of the ledger: the fourth column of each
data line, the header line excluded. -/
def ledgerHashes (lines : List Str) : List Str := (lines.drop 1).filterMap lineHash

/-- Lexicographic `≤` on strings by code point (Python string comparison). -/
def strLe : Str → Str → Bool
  | [], _ => true
  | _ :: _, [] => false
  | a :: as, b :: bs => if a = b then strLe as bs else decide (a < b)

/-- The row order of `hash-count.tsv`: count descending, then hash ascending
(the sort key `(-count, hash)`). -/
def hcLe (p q : Str × Nat) : Prop := q.2 < p.2 ∨ (p.2 = q.2 ∧ strLe p.1 q.1 = true)

instance : DecidableRel hcLe := fun p q => by unfold hcLe; infer_instance

/-- `update_hash_counts` as a function from the `objects.tsv` lines to the rows
of `hash-count.tsv`: count the occurrences of the fourth column over the data
lines, then sort the (hash, count) pairs by count descending / hash ascending. -/
def update_hash_counts (lines : List Str) : List (Str × Nat) :=
  List.insertionSort hcLe
    ((ledgerHashes lines).dedup.map fun h => (h, (ledgerHashes lines).count h))

theorem strLe_total (a b : Str) : strLe a b = true ∨ strLe b a = true := by
  induction a generalizing b with
  | nil => left; rfl
  | cons x xs ih =>
    cases b with
    | nil => right; rfl
    | cons y ys =>
      by_cases hxy : x = y
      · subst hxy; simpa [strLe] using ih ys
      · rcases lt_or_gt_of_ne hxy with h | h
        · left; simp [strLe, hxy, h]
        · right; simp [strLe, Ne.symm hxy, h]

theorem strLe_trans (a b c : Str) (hab : strLe a b = true) (hbc : strLe b c = true) :
    strLe a c = true := by
  induction a generalizing b c with
  | nil => rfl
  | cons x xs ih =>
    cases b with
    | nil => simp [strLe] at hab
    | cons y ys =>
      cases c with
      | nil => simp [strLe] at hbc
      | cons z zs =>
        by_cases hxy : x = y <;> by_cases hyz : y = z
        · subst hxy; subst hyz
          simp only [strLe, if_pos rfl] at hab hbc ⊢
          exact ih ys zs hab hbc
        · subst hxy
          simp only [strLe, if_pos rfl, if_neg hyz, decide_eq_true_eq] at hbc ⊢
          simp [hyz, hbc]
        · subst hyz
          simp only [strLe, if_neg hxy, decide_eq_true_eq] at hab
          simp [strLe, hxy, hab]
        · simp only [strLe, if_neg hxy, if_neg hyz, decide_eq_true_eq] at hab hbc
          have hxz : x < z := lt_trans hab hbc
          simp [strLe, ne_of_lt hxz, hxz]

instance : IsTotal (Str × Nat) hcLe :=
  ⟨fun p q => by
    unfold hcLe
    rcases lt_trichotomy p.2 q.2 with h | h | h
    · right; left; exact h
    · rcases strLe_total p.1 q.1 with hs | hs
      · left; right; exact ⟨h, hs⟩
      · right; right; exact ⟨h.symm, hs⟩
    · left; left; exact h⟩

instance : IsTrans (Str × Nat) hcLe :=
  ⟨fun p q r hpq hqr => by
    unfold hcLe at *
    rcases hpq with h1 | ⟨h1, hs1⟩ <;> rcases hqr with h2 | ⟨h2, hs2⟩
    · left; omega
    · left; omega
    · left; omega
    · right; exact ⟨h1.trans h2, strLe_trans _ _ _ hs1 hs2⟩⟩

theorem count_filterMap_lineHash (lines : List Str) (H : Str) :
    (lines.filterMap lineHash).count H = lines.countP (fun l => lineHash l = some H) := by
  induction lines with
  | nil => rfl
  | cons l ls ih =>
    rw [List.filterMap_cons, List.countP_cons]
    cases h : lineHash l with
    | none => simp [h, ih]
    | some v =>
      by_cases hv : v = H
      · subst hv; simp [h, ih, List.count_cons]
      · simp [h, ih, List.count_cons, hv, Option.some_inj]

theorem count_ledgerHashes (lines : List Str) (H : Str) :
    (ledgerHashes lines).count H
      = (lines.drop 1).countP (fun l => lineHash l = some H) :=
  count_filterMap_lineHash (lines.drop 1) H

/-- **C8**: filename parsing. `parse_mcro_fields` agrees on every name with the
spec's rule (prefix check, extension strip, underscore split, tokens 1–3 when
at least four exist, blanks otherwise), and the two examples of the spec hold:
`MCRO_12345_Motion_2024-01-01.pdf ↦ (12345, Motion, 2024-01-01)` and
`report.pdf ↦ (ε, ε, ε)`. -/
theorem claim_c8_filename_parsing :
    (∀ name, parse_mcro_fields name = mcroFieldsSpec name)
    ∧ parse_mcro_fields "MCRO_12345_Motion_2024-01-01.pdf".data =
        ("12345".data, "Motion".data, "2024-01-01".data)
    ∧ parse_mcro_fields "report.pdf".data = ([], [], []) :=
  ⟨parse_mcro_eq_spec, by decide, by decide⟩

/-- **C3**: schema migration. A ledger whose first line is the legacy 5-column
header becomes the 22-column header followed by the same number of data rows in
the original order, each transformed to 3 empty fields + the original fields +
14 empty fields; the migration's filesystem trace writes a temporary file and
renames it over the target, so the target only ever holds the original or the
fully migrated content; a file with any other first line is left unchanged. -/
theorem claim_c3_schema_migration (rows : List Str) :
    ensure_layout_objects (some (OLD_HEADER_5 :: rows)) = OBJECTS_HEADER :: rows.map migrateRow
    ∧ (rows.map migrateRow).length = rows.length
    ∧ (∀ r ∈ rows, splitSep '\t' (migrateRow r) =
        [[], [], []] ++ splitSep '\t' r ++ List.replicate 14 [])
    ∧ (∀ k, (((migrationOps rows).take k).foldl applyFsOp (none, OLD_HEADER_5 :: rows)).2
          = OLD_HEADER_5 :: rows
        ∨ (((migrationOps rows).take k).foldl applyFsOp (none, OLD_HEADER_5 :: rows)).2
          = OBJECTS_HEADER :: rows.map migrateRow)
    ∧ (∀ first rest, first ≠ OLD_HEADER_5 →
        ensure_layout_objects (some (first :: rest)) = first :: rest) := by
  refine ⟨by simp [ensure_layout_objects], by simp,
    fun r _ => migrateRow_fields r, fun k => ?_, fun first rest h => ?_⟩
  · match k with
    | 0 => left; rfl
    | 1 => left; rfl
    | n + 2 => right; simp [migrationOps, applyFsOp]
  · simp [ensure_layout_objects, h]

/-- **C2**: the hash-count table. After `update_hash_counts`, a pair `(H, c)`
is a row exactly when `H` occurs in the ledger's fourth column (header line
excluded) and `c` counts the data lines whose fourth column is `H`; the rows
carry pairwise distinct hashes (exactly one row per hash); and the rows are
sorted by count descending, then hash ascending.  The table holds such rows
only — no header row exists in the model, as in the file the code writes. -/
theorem claim_c2_hash_count_table (lines : List Str) :
    (∀ H c, (H, c) ∈ update_hash_counts lines ↔
      (H ∈ ledgerHashes lines ∧
        c = (lines.drop 1).countP (fun l => lineHash l = some H)))
    ∧ ((update_hash_counts lines).map Prod.fst).Nodup
    ∧ (update_hash_counts lines).Sorted hcLe := by
  have hperm := List.perm_insertionSort hcLe
      ((ledgerHashes lines).dedup.map fun h => (h, (ledgerHashes lines).count h))
  refine ⟨fun H c => ?_, ?_, List.sorted_insertionSort hcLe _⟩
  · rw [update_hash_counts, hperm.mem_iff, List.mem_map]
    constructor
    · rintro ⟨a, ha, heq⟩
      rw [Prod.mk.injEq] at heq
      obtain ⟨rfl, rfl⟩ := heq
      exact ⟨List.mem_dedup.mp ha, count_ledgerHashes lines a⟩
    · rintro ⟨hH, rfl⟩
      exact ⟨H, List.mem_dedup.mpr hH, by rw [count_ledgerHashes lines H]⟩
  · refine (hperm.map Prod.fst).nodup_iff.mpr ?_
    rw [List.map_map]
    have hc : (Prod.fst ∘ fun h => (h, (ledgerHashes lines).count h)) = id := rfl
    rw [hc, List.map_id]
    exact List.nodup_dedup _

/-! ## Dedup store (`copy_object_if_new_by_hash`) -/

/-- An entry of `hashed-objects/`: (file name, stored bytes). -/
abbrev StoreEntry := Str × Str

/-- The presence check of `copy_object_if_new_by_hash`: an entry named exactly
`sha` (the `base.exists()` check), or whose name matches the glob `sha.*`,
i.e. continues `sha` with a dot. -/
def nameMatches (sha name : Str) : Bool :=
  name == sha || leadsIn (sha ++ ['.']) name

/-- `ext = src.suffix.lower()`, emptied when longer than 11 characters. -/
def normExt (ext : Str) : Str :=
  if (lowerStr ext).length > 11 then [] else lowerStr ext

/-- One store request: the object's content hash, the source path's suffix and
the object's bytes. -/
structure StoreReq where
  sha : Str
  ext : Str
  content : Str
deriving DecidableEq

/-- `copy_object_if_new_by_hash` as a transformation of the store: unchanged
when an entry matching the hash exists; otherwise the bytes are written (via a
temporary file renamed into place) under the name `sha + ext`. -/
def copyStep (store : List StoreEntry) (r : StoreReq) : List StoreEntry :=
  if store.any (fun e => nameMatches r.sha e.1) then store
  else store ++ [(r.sha ++ normExt r.ext, r.content)]

/-- The shape `pathlib.Path.suffix` produces: empty, or starting with a dot. -/
def dotShaped (e : Str) : Bool :=
  match e with
  | [] => true
  | c :: _ => c == '.'

/-- A well-formed request: the hash is a hex digest (so contains no dot) and
the extension comes from `Path.suffix` (empty or dot-headed). -/
def wfReq (r : StoreReq) : Prop := '.' ∉ r.sha ∧ dotShaped r.ext = true

/-- The store entries whose name matches `sha` under the presence check. -/
def storeRowsFor (sha : Str) (store : List StoreEntry) : List StoreEntry :=
  store.filter (fun e => nameMatches sha e.1)

/-- The first request of the sequence carrying a given hash. -/
def firstReqFor (sha : Str) (reqs : List StoreReq) : Option StoreReq :=
  reqs.find? (fun r => r.sha == sha)

theorem normExt_dotShaped (e : Str) (he : dotShaped e = true) :
    dotShaped (normExt e) = true := by
  unfold normExt
  split
  · rfl
  · cases e with
    | nil => rfl
    | cons c t =>
      simp only [dotShaped, beq_iff_eq] at he
      simp [lowerStr, dotShaped, he, Char.toLower]

theorem nameMatches_own (sha ext : Str) (he : dotShaped ext = true) :
    nameMatches sha (sha ++ normExt ext) = true := by
  have hd := normExt_dotShaped ext he
  unfold nameMatches
  cases hn : normExt ext with
  | nil => simp
  | cons c t =>
    rw [hn] at hd
    simp only [dotShaped, beq_iff_eq] at hd
    subst hd
    have : sha ++ '.' :: t = (sha ++ ['.']) ++ t := by simp
    rw [this, leadsIn_append]
    simp

theorem eq_of_dot_append (a : Str) :
    ∀ (b x y : Str), '.' ∉ a → '.' ∉ b → a ++ '.' :: x = b ++ '.' :: y → a = b := by
  induction a with
  | nil =>
    intro b x y _ hb h
    cases b with
    | nil => rfl
    | cons c b' =>
      simp only [List.nil_append, List.cons_append, List.cons.injEq] at h
      exact absurd (h.1 ▸ List.mem_cons_self c b') hb
  | cons c a' ih =>
    intro b x y ha hb h
    cases b with
    | nil =>
      simp only [List.cons_append, List.nil_append, List.cons.injEq] at h
      exact absurd (h.1 ▸ List.mem_cons_self c a') ha
    | cons d b' =>
      simp only [List.cons_append, List.cons.injEq] at h
      obtain ⟨rfl, h2⟩ := h
      have := ih b' x y (fun hm => ha (List.mem_cons_of_mem c hm))
        (fun hm => hb (List.mem_cons_of_mem c hm)) h2
      rw [this]

theorem nameMatches_other (sha sha' n : Str) (hsha : '.' ∉ sha) (hsha' : '.' ∉ sha')
    (hn : dotShaped n = true) (hne : sha' ≠ sha) :
    nameMatches sha (sha' ++ n) = false := by
  unfold nameMatches
  rw [Bool.or_eq_false_iff]
  constructor
  · rw [beq_eq_false_iff_ne]
    cases n with
    | nil => simpa using hne
    | cons c t =>
      simp only [dotShaped, beq_iff_eq] at hn
      subst hn
      intro h
      exact hsha (h ▸ List.mem_append_right sha' (List.mem_cons_self '.' t))
  · rw [← Bool.not_eq_true, leadsIn_iff_exists]
    rintro ⟨u, hu⟩
    cases n with
    | nil =>
      rw [List.append_nil] at hu
      have : sha ++ '.' :: u = sha' := hu.symm ▸ (by simp)
      exact hsha' (this ▸ List.mem_append_right sha (List.mem_cons_self '.' u))
    | cons c t =>
      simp only [dotShaped, beq_iff_eq] at hn
      subst hn
      have heq : sha' ++ '.' :: t = sha ++ '.' :: u := by simpa using hu
      exact hne (eq_of_dot_append sha' sha t u hsha' hsha heq)

/-- The value the store's matching rows must take after a request history
`past`: nothing, or exactly the blob written for the first request of `past`
carrying that hash. -/
def expectedRowsFor (sha : Str) (past : List StoreReq) : List StoreEntry :=
  match firstReqFor sha past with
  | none => []
  | some r => [(sha ++ normExt r.ext, r.content)]

theorem expectedRowsFor_append_single (sha : Str) (past : List StoreReq) (r : StoreReq) :
    expectedRowsFor sha (past ++ [r])
      = match (firstReqFor sha past).or (firstReqFor sha [r]) with
        | none => []
        | some q => [(sha ++ normExt q.ext, q.content)] := by
  unfold expectedRowsFor firstReqFor
  rw [List.find?_append]

theorem copyStep_rows (r : StoreReq) (past : List StoreReq) (store : List StoreEntry)
    (hwfr : wfReq r)
    (hinv : ∀ sha, '.' ∉ sha → storeRowsFor sha store = expectedRowsFor sha past) :
    ∀ sha, '.' ∉ sha →
      storeRowsFor sha (copyStep store r) = expectedRowsFor sha (past ++ [r]) := by
  intro sha hsha
  rw [expectedRowsFor_append_single]
  by_cases hshr : r.sha = sha
  · subst hshr
    unfold copyStep
    by_cases hany : store.any (fun e => nameMatches r.sha e.1) = true
    · rw [if_pos hany]
      obtain ⟨e, he, hme⟩ := List.any_eq_true.mp hany
      have hmem : e ∈ storeRowsFor r.sha store := List.mem_filter.mpr ⟨he, hme⟩
      rw [hinv r.sha hsha] at hmem ⊢
      cases hf : firstReqFor r.sha past with
      | none => rw [expectedRowsFor, hf] at hmem; simp at hmem
      | some r0 => rw [expectedRowsFor, hf]; simp
    · rw [if_neg hany]
      have hempty : storeRowsFor r.sha store = [] := by
        rw [storeRowsFor, List.filter_eq_nil_iff]
        intro e he
        intro hme
        exact hany (List.any_eq_true.mpr ⟨e, he, hme⟩)
      have hnone : firstReqFor r.sha past = none := by
        cases hf : firstReqFor r.sha past with
        | none => rfl
        | some r0 =>
          have := hinv r.sha hsha
          rw [hempty, expectedRowsFor, hf] at this
          exact absurd this.symm (by simp)
      rw [storeRowsFor, List.filter_append, ← storeRowsFor, hempty, hnone, Option.none_or]
      have hself : firstReqFor r.sha [r] = some r := by
        rw [firstReqFor]
        exact List.find?_cons_of_pos _ (by simp)
      rw [hself]
      simp [nameMatches_own r.sha r.ext hwfr.2]
  · have hlast : firstReqFor sha [r] = none := by
      rw [firstReqFor]
      rw [List.find?_cons_of_neg, List.find?_nil]
      simp [hshr]
    rw [hlast, Option.or_none]
    unfold copyStep
    by_cases hany : store.any (fun e => nameMatches r.sha e.1) = true
    · rw [if_pos hany]
      rw [hinv sha hsha, expectedRowsFor]
    · rw [if_neg hany]
      rw [storeRowsFor, List.filter_append, ← storeRowsFor, hinv sha hsha]
      have hnew : nameMatches sha (r.sha ++ normExt r.ext) = false :=
        nameMatches_other sha r.sha (normExt r.ext) hsha hwfr.1
          (normExt_dotShaped r.ext hwfr.2) hshr
      rw [expectedRowsFor]
      simp [hnew]

theorem copyStep_fold_rows (reqs : List StoreReq) :
    ∀ (past : List StoreReq) (store : List StoreEntry),
      (∀ r ∈ reqs, wfReq r) →
      (∀ sha, '.' ∉ sha → storeRowsFor sha store = expectedRowsFor sha past) →
      ∀ sha, '.' ∉ sha →
        storeRowsFor sha (reqs.foldl copyStep store) = expectedRowsFor sha (past ++ reqs) := by
  induction reqs with
  | nil => intro past store _ hinv sha hsha; simpa using hinv sha hsha
  | cons r rs ih =>
    intro past store hwf hinv sha hsha
    have hstep := copyStep_rows r past store (hwf r (List.mem_cons_self r rs)) hinv
    have := ih (past ++ [r]) (copyStep store r)
      (fun q hq => hwf q (List.mem_cons_of_mem r hq)) hstep sha hsha
    simpa [List.append_assoc] using this

instance : DecidablePred wfReq := fun r => by unfold wfReq; infer_instance

theorem copyStep_of_present (store : List StoreEntry) (r : StoreReq)
    (h : ∃ e ∈ store, nameMatches r.sha e.1 = true) : copyStep store r = store := by
  obtain ⟨e, he, hme⟩ := h
  unfold copyStep
  rw [if_pos (List.any_eq_true.mpr ⟨e, he, hme⟩)]

theorem mem_foldl_copyStep (e : StoreEntry) (reqs : List StoreReq) :
    ∀ store, e ∈ store → e ∈ reqs.foldl copyStep store := by
  induction reqs with
  | nil => intro store h; exact h
  | cons r rs ih =>
    intro store h
    refine ih (copyStep store r) ?_
    unfold copyStep
    split
    · exact h
    · exact List.mem_append_left _ h

/-- **C4**: dedup-store uniqueness. Over any sequence of well-formed store
requests (hex hashes, `Path.suffix`-shaped extensions) applied to an initially
empty store, and for every hex (dot-free) hash: the store rows matching that
hash are empty when no request carried it, and otherwise exactly the one blob
written for the *first* request with that hash — named by the hash plus that
first request's normalized extension and holding its bytes — so at most one
blob per hash exists, its extension is first-extension-wins, and this holds
regardless of the order of requests across documents.  Each call only ever
appends to the store: no entry is overwritten or deleted. -/
theorem claim_c4_dedup_store (reqs : List StoreReq) (hwf : ∀ r ∈ reqs, wfReq r) :
    (∀ sha, '.' ∉ sha →
      storeRowsFor sha (reqs.foldl copyStep []) = expectedRowsFor sha reqs)
    ∧ (∀ sha, '.' ∉ sha → (storeRowsFor sha (reqs.foldl copyStep [])).length ≤ 1)
    ∧ (∀ store r, ∃ tail, copyStep store r = store ++ tail) := by
  have hbase : ∀ sha, '.' ∉ sha →
      storeRowsFor sha ([] : List StoreEntry) = expectedRowsFor sha [] := by
    intro sha _
    simp [storeRowsFor, expectedRowsFor, firstReqFor]
  have hmain := copyStep_fold_rows reqs [] [] hwf hbase
  refine ⟨fun sha hsha => by simpa using hmain sha hsha, fun sha hsha => ?_, fun store r => ?_⟩
  · have h := hmain sha hsha
    rw [List.nil_append] at h
    rw [h]
    unfold expectedRowsFor
    cases firstReqFor sha reqs <;> simp
  · unfold copyStep
    split
    · exact ⟨[], by simp⟩
    · exact ⟨[(r.sha ++ normExt r.ext, r.content)], rfl⟩

theorem claim_c4_dedup_store_witness :
    storeRowsFor "ab".data
        (([⟨"ab".data, ".JPG".data, "X".data⟩,
           ⟨"ab".data, ".png".data, "Y".data⟩] : List StoreReq).foldl copyStep [])
      = [("ab".data ++ normExt ".JPG".data, "X".data)] := by
  have h := (claim_c4_dedup_store
      [⟨"ab".data, ".JPG".data, "X".data⟩, ⟨"ab".data, ".png".data, "Y".data⟩]
      (by decide)).1 "ab".data (by decide)
  rw [h]
  rfl

/-- **C10** (implicit): a stale file whose name is the hash or continues it
with a dot — in particular a leftover temporary `<hash>.tmp` from an
interrupted run — satisfies the presence check of `copy_object_if_new_by_hash`,
so any store call for that hash returns with no change, now and after any
further sequence of store calls: the stale entry permanently suppresses all
future stores of that hash. -/
theorem claim_c10_stale_tmp_suppresses (sha : Str) (store : List StoreEntry)
    (e : StoreEntry) (he : e ∈ store) (hm : nameMatches sha e.1 = true) :
    nameMatches sha (sha ++ ".tmp".data) = true
    ∧ ∀ reqs ext content,
        copyStep (List.foldl copyStep store reqs) ⟨sha, ext, content⟩
          = List.foldl copyStep store reqs := by
  constructor
  · unfold nameMatches
    have hsplit : sha ++ ".tmp".data = (sha ++ ['.']) ++ "tmp".data := by
      rw [List.append_assoc]; rfl
    rw [hsplit, leadsIn_append]
    simp
  · intro reqs ext content
    exact copyStep_of_present _ _ ⟨e, mem_foldl_copyStep e reqs store he, hm⟩

theorem claim_c10_stale_tmp_suppresses_witness :
    copyStep (List.foldl copyStep [("ab.tmp".data, "Z".data)] [])
        ⟨"ab".data, ".png".data, "Q".data⟩
      = List.foldl copyStep [("ab.tmp".data, "Z".data)] [] :=
  (claim_c10_stale_tmp_suppresses "ab".data [("ab.tmp".data, "Z".data)]
      ("ab.tmp".data, "Z".data) (by simp) (by decide)).2 [] ".png".data "Q".data

/-! ## Signature-block parsing (`parse_pdfsig`)

The regular expressions of the source, interpreted over character lists:
`SIG_BLOCK_RE` anchors at the start of the stripped line
(`^Signature\s#([1-4]):`); the three field patterns are searched anywhere in
the raw line and capture greedily to the end (`...\s(.*)$`).
`normalize_sig_time` calls the `datetime` library, so the model takes the
normalizer as a parameter and proves the claim for every normalizer. -/

/-- Python's `\s` on the ASCII range. -/
def pyWs (c : Char) : Bool :=
  c == ' ' || c == '\t' || c == '\n' || c == '\x0b' || c == '\x0c' || c == '\r'

/-- Python `str.strip()`. -/
def pyStrip (cs : Str) : Str :=
  ((cs.dropWhile pyWs).reverse.dropWhile pyWs).reverse

/-- Consume a literal from the front of the input, or fail. -/
def dropLit (lit cs : Str) : Option Str :=
  if leadsIn lit cs then some (cs.drop lit.length) else none

/-- Consume one word then exactly one `\s` character. -/
def matchWordWs (w cs : Str) : Option Str :=
  match dropLit w cs with
  | none => none
  | some [] => none
  | some (c :: rest) => if pyWs c then some rest else none

/-- Match `w₁\sw₂\s…wₖ\s` at the start of the input and return the greedy
`(.*)$` capture: the whole rest of the line. -/
def matchSeq : List Str → Str → Option Str
  | [], cs => some cs
  | w :: ws, cs =>
    match matchWordWs w cs with
    | none => none
    | some rest => matchSeq ws rest

/-- `re.search`: try the pattern at every position, leftmost match wins. -/
def reSearch (m : Str → Option Str) : Str → Option Str
  | [] => m []
  | c :: rest =>
    match m (c :: rest) with
    | some v => some v
    | none => reSearch m rest

/-- Words of `CN_RE`: `Signer\sCertificate\sCommon\sName:\s(.*)$`. -/
def cnWords : List Str := ["Signer".data, "Certificate".data, "Common".data, "Name:".data]

/-- Words of `TIME_RE`: `Signing\sTime:\s(.*)$`. -/
def timeWords : List Str := ["Signing".data, "Time:".data]

/-- Words of `RANGE_RE`: `Signed\sRanges:\s(.*)$`. -/
def rangeWords : List Str := ["Signed".data, "Ranges:".data]

/-- The `([1-4])` capture: the block number of a digit between 1 and 4. -/
def digitBlock (d : Char) : Option Nat :=
  if d == '1' || d == '2' || d == '3' || d == '4' then some (d.toNat - 48) else none

/-- `SIG_BLOCK_RE.match(line.strip())`: `^Signature\s#([1-4]):`, returning the
captured block number. -/
def matchSigBlock (cs : Str) : Option Nat :=
  match dropLit "Signature".data cs with
  | none => none
  | some rest =>
    match rest with
    | w :: h :: d :: c :: _ =>
      if pyWs w && (h == '#') && (c == ':') then digitBlock d else none
    | _ => none

/-- One signature block's three captured slots. -/
structure SigBlock where
  cn : Str
  time : Str
  range : Str
deriving DecidableEq

/-- All slots empty, as the `sigs` dict is initialized. -/
def emptyBlock : SigBlock := ⟨[], [], []⟩

/-- Parser state: the current block index (`cur`, initially 0) and the slots
per block index. -/
structure SigState where
  cur : Nat
  blocks : Nat → SigBlock

/-- Write one block's slots through an update function. -/
def setBlock (i : Nat) (f : SigBlock → SigBlock) (st : SigState) : SigState :=
  { st with blocks := fun j => if j = i then f (st.blocks j) else st.blocks j }

/-- One line of the `pdfsig` output, processed as in the source's loop:
a block-header match sets `cur`; otherwise, with `cur` in 1..4, the first of
the three patterns that matches fills that slot of block `cur`. -/
def sigStep (norm : Str → Str) (st : SigState) (line : Str) : SigState :=
  match matchSigBlock (pyStrip line) with
  | some n => { st with cur := n }
  | none =>
    if ¬ (1 ≤ st.cur ∧ st.cur ≤ 4) then st
    else
      match reSearch (matchSeq cnWords) line with
      | some v => setBlock st.cur (fun b => { b with cn := pyStrip v }) st
      | none =>
        match reSearch (matchSeq timeWords) line with
        | some v => setBlock st.cur (fun b => { b with time := norm v }) st
        | none =>
          match reSearch (matchSeq rangeWords) line with
          | some v => setBlock st.cur (fun b => { b with range := pyStrip v }) st
          | none => st

/-- The state before any line: `cur = 0`, all slots empty. -/
def initSigState : SigState := ⟨0, fun _ => emptyBlock⟩

/-- `parse_pdfsig` over the metadata extractor's text output (its lines),
parameterized by the signing-time normalizer. -/
def parse_pdfsig (norm : Str → Str) (out : List Str) : SigState :=
  out.foldl (sigStep norm) initSigState

theorem sigStep_header (norm : Str → Str) (st : SigState) (line : Str) (n : Nat)
    (hm : matchSigBlock (pyStrip line) = some n) :
    sigStep norm st line = { st with cur := n } := by
  unfold sigStep
  rw [hm]

theorem sigStep_out_of_range (norm : Str → Str) (st : SigState) (line : Str)
    (hm : matchSigBlock (pyStrip line) = none) (hc : ¬ (1 ≤ st.cur ∧ st.cur ≤ 4)) :
    sigStep norm st line = st := by
  unfold sigStep
  rw [hm, if_pos hc]

theorem sigStep_cur (norm : Str → Str) (st : SigState) (line : Str)
    (hm : matchSigBlock (pyStrip line) = none) :
    (sigStep norm st line).cur = st.cur := by
  unfold sigStep
  rw [hm]
  by_cases hc : 1 ≤ st.cur ∧ st.cur ≤ 4
  · rw [if_neg (not_not_intro hc)]
    cases reSearch (matchSeq cnWords) line with
    | some v => rfl
    | none =>
      cases reSearch (matchSeq timeWords) line with
      | some v => rfl
      | none =>
        cases reSearch (matchSeq rangeWords) line with
        | some v => rfl
        | none => rfl
  · rw [if_pos hc]

theorem sigStep_blocks (norm : Str → Str) (st : SigState) (line : Str) (j : Nat)
    (hm : matchSigBlock (pyStrip line) = none) (hj : j ≠ st.cur) :
    (sigStep norm st line).blocks j = st.blocks j := by
  unfold sigStep
  rw [hm]
  by_cases hc : 1 ≤ st.cur ∧ st.cur ≤ 4
  · rw [if_neg (not_not_intro hc)]
    cases reSearch (matchSeq cnWords) line with
    | some v => simp [setBlock, hj]
    | none =>
      cases reSearch (matchSeq timeWords) line with
      | some v => simp [setBlock, hj]
      | none =>
        cases reSearch (matchSeq rangeWords) line with
        | some v => simp [setBlock, hj]
        | none => rfl
  · rw [if_pos hc]

theorem sigFold_noheader (norm : Str → Str) (body : List Str) :
    ∀ st : SigState, (∀ l ∈ body, matchSigBlock (pyStrip l) = none) →
      (body.foldl (sigStep norm) st).cur = st.cur
      ∧ ∀ j, j ≠ st.cur → (body.foldl (sigStep norm) st).blocks j = st.blocks j := by
  induction body with
  | nil => intro st _; exact ⟨rfl, fun _ _ => rfl⟩
  | cons l ls ih =>
    intro st hb
    have hml := hb l (List.mem_cons_self l ls)
    have hcur := sigStep_cur norm st l hml
    obtain ⟨ih1, ih2⟩ := ih (sigStep norm st l) (fun x hx => hb x (List.mem_cons_of_mem l hx))
    refine ⟨by rw [List.foldl_cons, ih1, hcur], fun j hj => ?_⟩
    rw [List.foldl_cons, ih2 j (by rw [hcur]; exact hj), sigStep_blocks norm st l j hml hj]

theorem sigFold_out_of_range (norm : Str → Str) (body : List Str) :
    ∀ st : SigState, (∀ l ∈ body, matchSigBlock (pyStrip l) = none) →
      ¬ (1 ≤ st.cur ∧ st.cur ≤ 4) → body.foldl (sigStep norm) st = st := by
  induction body with
  | nil => intro st _ _; rfl
  | cons l ls ih =>
    intro st hb hc
    rw [List.foldl_cons, sigStep_out_of_range norm st l (hb l (List.mem_cons_self l ls)) hc]
    exact ih st (fun x hx => hb x (List.mem_cons_of_mem l hx)) hc

theorem digitBlock_range (d : Char) (n : Nat) (hm : digitBlock d = some n) :
    1 ≤ n ∧ n ≤ 4 := by
  unfold digitBlock at hm
  split at hm
  · rename_i hcond
    rw [Bool.or_eq_true, Bool.or_eq_true, Bool.or_eq_true] at hcond
    obtain rfl := Option.some_inj.mp hm
    rcases hcond with ((h1 | h2) | h3) | h4
    · obtain rfl := beq_iff_eq.mp h1; decide
    · obtain rfl := beq_iff_eq.mp h2; decide
    · obtain rfl := beq_iff_eq.mp h3; decide
    · obtain rfl := beq_iff_eq.mp h4; decide
  · exact absurd hm (by simp)

theorem matchSigBlock_range (cs : Str) (n : Nat) (hm : matchSigBlock cs = some n) :
    1 ≤ n ∧ n ≤ 4 := by
  unfold matchSigBlock at hm
  cases hd : dropLit "Signature".data cs with
  | none => rw [hd] at hm; exact absurd hm (by simp)
  | some rest =>
    rw [hd] at hm
    cases rest with
    | nil => exact absurd hm (by simp)
    | cons w r1 =>
      cases r1 with
      | nil => exact absurd hm (by simp)
      | cons h r2 =>
        cases r2 with
        | nil => exact absurd hm (by simp)
        | cons d r3 =>
          cases r3 with
          | nil => exact absurd hm (by simp)
          | cons c r4 =>
            simp only [] at hm
            split at hm
            · exact digitBlock_range d n hm
            · exact absurd hm (by simp)

/-- **C9 (counterexample)**: the claim that content belonging to blocks beyond
the 4th is never written into the four retained blocks fails on the code.
A `Signature #5:` header does not match `^Signature\s#([1-4]):`, so the
current index stays 4, and the common-name line under block 5 is written into
block 4's slot. -/
theorem claim_c9_counterexample :
    ((parse_pdfsig (fun s => s)
        ["Signature #4:".data, "Signature #5:".data,
         "Signer Certificate Common Name: Eve".data]).blocks 4).cn = "Eve".data := by
  decide

/-- **C9 (amended)**: a line matching the block-header pattern (necessarily
with `N` in 1..4) sets the current block index; lines matching no header leave
the index unchanged, so their pattern matches fill only the block most
recently named by a matching header — in particular, content under a
non-matching header such as `Signature #5:` is captured into the previously
current block rather than ignored; blocks other than the current one are
never written; and with no matching header seen at all, nothing is written. -/
theorem claim_c9_block_attribution (norm : Str → Str) (pre : List Str) (hdr : Str)
    (body : List Str) (n : Nat)
    (hhdr : matchSigBlock (pyStrip hdr) = some n)
    (hbody : ∀ l ∈ body, matchSigBlock (pyStrip l) = none) :
    (1 ≤ n ∧ n ≤ 4)
    ∧ (parse_pdfsig norm (pre ++ hdr :: body)).cur = n
    ∧ (∀ j, j ≠ n →
        (parse_pdfsig norm (pre ++ hdr :: body)).blocks j
          = (parse_pdfsig norm (pre ++ [hdr])).blocks j)
    ∧ (∀ ls, (∀ l ∈ ls, matchSigBlock (pyStrip l) = none) →
        parse_pdfsig norm ls = initSigState) := by
  have hsplit : parse_pdfsig norm (pre ++ hdr :: body)
      = body.foldl (sigStep norm)
          (sigStep norm (pre.foldl (sigStep norm) initSigState) hdr) := by
    unfold parse_pdfsig
    rw [List.foldl_append, List.foldl_cons]
  have hhd := sigStep_header norm (pre.foldl (sigStep norm) initSigState) hdr n hhdr
  obtain ⟨hcur, hblocks⟩ := sigFold_noheader norm body
    (sigStep norm (pre.foldl (sigStep norm) initSigState) hdr) hbody
  refine ⟨matchSigBlock_range _ n hhdr, ?_, fun j hj => ?_, fun ls hls => ?_⟩
  · rw [hsplit, hcur, hhd]
  · have hone : parse_pdfsig norm (pre ++ [hdr])
        = sigStep norm (pre.foldl (sigStep norm) initSigState) hdr := by
      unfold parse_pdfsig
      rw [List.foldl_append, List.foldl_cons, List.foldl_nil]
    rw [hsplit, hone]
    refine hblocks j ?_
    rw [hhd]
    exact hj
  · exact sigFold_out_of_range norm ls initSigState hls (by decide)

theorem claim_c9_block_attribution_witness :
    (parse_pdfsig (fun s => s)
        (["junk".data] ++ "Signature #2:".data :: ["Signing Time: now".data])).cur = 2 :=
  (claim_c9_block_attribution (fun s => s) ["junk".data] "Signature #2:".data
      ["Signing Time: now".data] 2 (by decide) (by decide)).2.1

/-! ## The ingestion pipeline (`process_pdf`, `scan_once`)

State is the persisted layout: ledger lines, processed-record lines,
hash-count rows, dedup store, in-flight markers and completion stamps.
External tools and the clock are an environment parameter; a document carries
its name, bytes, whether it still exists after settling, its mtime, and the
sizes the settling loop observes poll by poll. -/

/-- The loop of `wait_for_quiet_file`: up to `tries` polls; a missing file
sleeps and continues; a size equal to the previous one returns early (`true`);
exhausting the polls falls off the loop (`false`) — and the caller cannot see
the difference, since the Python function returns `None` either way. -/
def wfqLoop (obs : Nat → Option Nat) : Nat → Nat → Option Nat → Bool
  | 0, _, _ => false
  | tries + 1, i, last =>
    match obs i with
    | none => wfqLoop obs tries (i + 1) last
    | some size => if last = some size then true else wfqLoop obs tries (i + 1) (some size)

/-- `wait_for_quiet_file` over the observation sequence; the source's initial
`last = -1` can never equal a file size, hence `none`. -/
def wait_for_quiet_file (obs : Nat → Option Nat) (tries : Nat) : Bool :=
  wfqLoop obs tries 0 none

/-- One extracted object as the directory walk yields it: base file name,
path relative to the objects root, `Path.suffix`, and bytes. -/
structure PdfObj where
  fname : Str
  rel : Str
  suffix : Str
  content : Str
deriving DecidableEq

/-- Output of `per_pdf_sig_and_meta`: four signature blocks plus
author/creator. -/
structure DocMeta where
  sig1 : SigBlock
  sig2 : SigBlock
  sig3 : SigBlock
  sig4 : SigBlock
  author : Str
  creator : Str

/-- The pipeline's externals: the content hasher, the object extractor
(`mutool`, which may fail), the metadata extractor, the font inspector, and
the clock. -/
structure PipelineEnv where
  hash : Str → Str
  extract : Str → Except Str (List PdfObj)
  meta : Str → DocMeta
  font : Str → Str
  now : Str

/-- A document as `process_pdf` sees it. -/
structure PdfDoc where
  name : Str
  content : Str
  present : Bool
  mtime : Nat
  obs : Nat → Option Nat

/-- The persisted state of the pipeline. -/
structure SysState where
  objects : List Str
  processed : List Str
  hashCount : List (Str × Nat)
  store : List StoreEntry
  inflight : List Str
  stamps : List (Str × Str)
deriving DecidableEq

/-- `load_processed_shas`: first tab-separated field of every nonempty line
(each occurrence kept, so its `count` counts the matching rows). -/
def load_processed_shas (lines : List Str) : List Str :=
  lines.filterMap fun line =>
    if line = [] then none
    else
      match splitSep '\t' line with
      | [] => none
      | p0 :: _ => if p0 = [] then none else some p0

/-- `os.path.basename` (POSIX form). -/
def basenameStr (s : Str) : Str := (s.reverse.takeWhile (fun c => ¬ c = '/')).reverse

/-- `safe_name`: strip the `.pdf` extension, take the base name, replace
spaces and separators by underscores. -/
def safe_name (name : Str) : Str :=
  (basenameStr (stripPdfExt name)).map fun c => if c = ' ' ∨ c = '/' then '_' else c

/-- One `processed.tsv` line:
`sha \t name \t size \t mtime \t iso-timestamp`. -/
def procLine (sha name : Str) (size mtime : Nat) (ts : Str) : Str :=
  sha ++ '\t' :: name ++ '\t' :: natStr size ++ '\t' :: natStr mtime ++ '\t' :: ts

/-- `record_processed`: append one row to `processed.tsv`. -/
def record_processed (s : SysState) (sha name : Str) (size mtime : Nat) (ts : Str) :
    SysState :=
  { s with processed := s.processed ++ [procLine sha name size mtime ts] }

/-- `mark_inflight`: create the per-hash lock file. -/
def mark_inflight (s : SysState) (sha : Str) : SysState :=
  { s with inflight := sha :: s.inflight }

/-- `clear_inflight`: remove the per-hash lock file (`missing_ok`). -/
def clear_inflight (s : SysState) (sha : Str) : SysState :=
  { s with inflight := s.inflight.filter (fun x => x != sha) }

/-- `write_stamp`: overwrite the `.processed.sha` stamp of an extraction
directory (keyed by the sanitized document name) with the document hash. -/
def write_stamp (s : SysState) (key sha : Str) : SysState :=
  { s with stamps := (key, sha) :: s.stamps }

/-- The known font extensions (`FONT_EXTS`). -/
def FONT_EXTS : List Str :=
  [".ttf".data, ".otf".data, ".ttc".data, ".woff".data, ".woff2".data,
   ".pfb".data, ".pfa".data]

/-- The 22 fields of one ledger row, in the source's order. -/
def objRow (caseNum ftype fdate h pdfName rel ext font : Str) (m : DocMeta) : List Str :=
  [caseNum, ftype, fdate, h, pdfName, rel, ext, font,
   m.sig1.cn, m.sig2.cn, m.author, m.creator, m.sig3.cn, m.sig4.cn,
   m.sig1.time, m.sig2.time, m.sig3.time, m.sig4.time,
   m.sig1.range, m.sig2.range, m.sig3.range, m.sig4.range]

/-- The body of the per-object loop: skip the stamp artifact; hash the object;
normalize its extension; resolve the font name only for font extensions;
append one ledger row; store into the dedup store. -/
def process_obj (env : PipelineEnv) (fields : Str × Str × Str) (pdfName : Str)
    (m : DocMeta) (s : SysState) (o : PdfObj) : SysState :=
  if o.fname = ".processed.sha".data then s
  else
    let h := env.hash o.content
    let ext := if (lowerStr o.suffix).length > 11 then [] else lowerStr o.suffix
    let font := if ext ∈ FONT_EXTS then env.font o.content else []
    let s1 := { s with objects := s.objects ++
        [joinTab (objRow fields.1 fields.2.1 fields.2.2 h pdfName o.rel ext font m)] }
    { s1 with store := copyStep s1.store ⟨h, o.suffix, o.content⟩ }

/-- `process_pdf`: settle (result unused, as in the source), abort silently if
the file vanished, hash the document, then the three-layer idempotency gate
(in-flight marker, processed set, completion stamp — the stamp hit also
backfills the processed record), then mark in-flight, extract (an extractor
failure propagates as the error, the marker still cleared), walk the objects,
write the stamp, append the processed record, rebuild the hash counts, and
clear the in-flight marker. -/
def process_pdf (env : PipelineEnv) (d : PdfDoc) (s : SysState) :
    SysState × Except Str Unit :=
  let _settled := wait_for_quiet_file d.obs 10
  if ¬ d.present then (s, Except.ok ())
  else
    let sha := env.hash d.content
    if sha ∈ s.inflight then (s, Except.ok ())
    else if sha ∈ load_processed_shas s.processed then (s, Except.ok ())
    else if s.stamps.lookup (safe_name d.name) = some sha then
      (record_processed s sha d.name d.content.length d.mtime env.now, Except.ok ())
    else
      let s1 := mark_inflight s sha
      match env.extract d.content with
      | Except.error e => (clear_inflight s1 sha, Except.error e)
      | Except.ok objs =>
        let fields := parse_mcro_fields d.name
        let m := env.meta d.content
        let s2 := objs.foldl (process_obj env fields d.name m) s1
        let s3 := write_stamp s2 (safe_name d.name) sha
        let s4 := record_processed s3 sha d.name d.content.length d.mtime env.now
        let s5 := { s4 with hashCount := update_hash_counts s4.objects }
        (clear_inflight s5 sha, Except.ok ())

/-- `scan_once`: process the matching documents in order.  The source wraps no
handler around `process_pdf`, so an error propagates and ends the scan. -/
def scan_once (env : PipelineEnv) (docs : List PdfDoc) (s : SysState) :
    SysState × Except Str Unit :=
  match docs with
  | [] => (s, Except.ok ())
  | d :: rest =>
    match process_pdf env d s with
    | (s1, Except.ok _) => scan_once env rest s1
    | (s1, Except.error e) => (s1, Except.error e)

/-! ## Pipeline lemmas -/

theorem process_obj_processed (env : PipelineEnv) (fields : Str × Str × Str)
    (pdfName : Str) (m : DocMeta) (s : SysState) (o : PdfObj) :
    (process_obj env fields pdfName m s o).processed = s.processed := by
  unfold process_obj
  split <;> rfl

theorem process_obj_inflight (env : PipelineEnv) (fields : Str × Str × Str)
    (pdfName : Str) (m : DocMeta) (s : SysState) (o : PdfObj) :
    (process_obj env fields pdfName m s o).inflight = s.inflight := by
  unfold process_obj
  split <;> rfl

theorem foldl_process_obj_processed (env : PipelineEnv) (fields : Str × Str × Str)
    (pdfName : Str) (m : DocMeta) (objs : List PdfObj) :
    ∀ s : SysState, (objs.foldl (process_obj env fields pdfName m) s).processed
      = s.processed := by
  induction objs with
  | nil => intro s; rfl
  | cons o os ih =>
    intro s
    rw [List.foldl_cons, ih, process_obj_processed]

theorem foldl_process_obj_inflight (env : PipelineEnv) (fields : Str × Str × Str)
    (pdfName : Str) (m : DocMeta) (objs : List PdfObj) :
    ∀ s : SysState, (objs.foldl (process_obj env fields pdfName m) s).inflight
      = s.inflight := by
  induction objs with
  | nil => intro s; rfl
  | cons o os ih =>
    intro s
    rw [List.foldl_cons, ih, process_obj_inflight]

theorem process_pdf_processed (env : PipelineEnv) (d : PdfDoc) (s : SysState) :
    (process_pdf env d s).1.processed = s.processed
    ∨ (process_pdf env d s).1.processed
        = s.processed
          ++ [procLine (env.hash d.content) d.name d.content.length d.mtime env.now] := by
  simp only [process_pdf]
  repeat' split
  all_goals first
    | (left; rfl)
    | (right; rfl)
    | (right
       simp [clear_inflight, record_processed, write_stamp,
         foldl_process_obj_processed, mark_inflight])

theorem process_pdf_inflight (env : PipelineEnv) (d : PdfDoc) (s : SysState)
    (h : env.hash d.content ∉ s.inflight) :
    env.hash d.content ∉ (process_pdf env d s).1.inflight := by
  simp only [process_pdf]
  repeat' split
  all_goals
    simp [clear_inflight, mark_inflight, record_processed, write_stamp,
      foldl_process_obj_inflight, List.mem_filter, h]

theorem process_pdf_skip_processed (env : PipelineEnv) (d : PdfDoc) (s : SysState)
    (h : env.hash d.content ∈ load_processed_shas s.processed) :
    process_pdf env d s = (s, Except.ok ()) := by
  simp only [process_pdf]
  repeat' split
  all_goals rfl

theorem process_pdf_error_state (env : PipelineEnv) (d : PdfDoc) (s s1 : SysState) (e : Str)
    (h : process_pdf env d s = (s1, Except.error e)) :
    s1.processed = s.processed ∧ s1.objects = s.objects := by
  simp only [process_pdf] at h
  repeat' split at h
  all_goals injection h with h1 h2
  all_goals first
    | exact Except.noConfusion h2
    | (subst h1; exact ⟨rfl, rfl⟩)

theorem load_processed_append (p q : List Str) :
    load_processed_shas (p ++ q) = load_processed_shas p ++ load_processed_shas q :=
  List.filterMap_append p q _

theorem filterMap_single_length {α β : Type} (f : α → Option β) (x : α) :
    (List.filterMap f [x]).length ≤ 1 := by
  rcases hfx : f x with - | b <;> simp [List.filterMap_cons, hfx]

theorem load_single_length (l : Str) : (load_processed_shas [l]).length ≤ 1 :=
  filterMap_single_length _ l

/-- **C1**: idempotent re-ingestion.  If a run of `process_pdf` on document
bytes whose hash had no processed record ends in success with the record
present (the run completed), then a second invocation on the same bytes —
under any file name, any mtime, any settling observations, even a vanished
file — returns with the state unchanged (a skip path: no extraction, no
ledger append, no record append), exactly one processed record exists for the
hash, and the ledger is exactly the one set of rows the first run left. -/
theorem claim_c1_idempotent_reingestion (env : PipelineEnv) (d1 d2 : PdfDoc)
    (s0 s1 : SysState)
    (hsame : d2.content = d1.content)
    (h0 : (load_processed_shas s0.processed).count (env.hash d1.content) = 0)
    (h1 : process_pdf env d1 s0 = (s1, Except.ok ()))
    (hrec : env.hash d1.content ∈ load_processed_shas s1.processed) :
    process_pdf env d2 s1 = (s1, Except.ok ())
    ∧ (load_processed_shas s1.processed).count (env.hash d1.content) = 1
    ∧ (process_pdf env d2 s1).1.objects = s1.objects := by
  have hskip : process_pdf env d2 s1 = (s1, Except.ok ()) :=
    process_pdf_skip_processed env d2 s1 (by rw [hsame]; exact hrec)
  refine ⟨hskip, ?_, by rw [hskip]⟩
  have hev := process_pdf_processed env d1 s0
  rw [h1] at hev
  simp only at hev
  rcases hev with heq | happ
  · rw [heq] at hrec
    exact absurd hrec (List.count_eq_zero.mp h0)
  · rw [happ] at hrec ⊢
    rw [load_processed_append] at hrec ⊢
    rw [List.count_append, h0, Nat.zero_add]
    have hmem : env.hash d1.content ∈ load_processed_shas
        [procLine (env.hash d1.content) d1.name d1.content.length d1.mtime env.now] := by
      rcases List.mem_append.mp hrec with hl | hr
      · exact absurd hl (List.count_eq_zero.mp h0)
      · exact hr
    have hge := List.count_pos_iff.mpr hmem
    have hle : List.count (env.hash d1.content)
        (load_processed_shas
          [procLine (env.hash d1.content) d1.name d1.content.length d1.mtime env.now]) ≤ 1 :=
      le_trans (List.count_le_length _ _) (load_single_length _)
    omega

/-- **C6**: the in-flight marker is always released.  For every run of
`process_pdf` whose document hash is not already marked (so the run itself is
the only one that can set the marker), the marker is absent from the resulting
state — on the success path, every skip path, and the extraction-failure path
alike (the second conjunct names the failure path explicitly). -/
theorem claim_c6_inflight_cleared (env : PipelineEnv) (d : PdfDoc) (s : SysState)
    (h : env.hash d.content ∉ s.inflight) :
    env.hash d.content ∉ (process_pdf env d s).1.inflight
    ∧ (∀ s1 e, process_pdf env d s = (s1, Except.error e) →
        env.hash d.content ∉ s1.inflight) := by
  refine ⟨process_pdf_inflight env d s h, fun s1 e he => ?_⟩
  have := process_pdf_inflight env d s h
  rw [he] at this
  exact this

/-- **C5 (amended)**: `scan_once` wraps no handler around the per-document
run, so one document's failure propagates: the scan returns that error, the
documents after the failing one are not examined in this scan, and the failing
document is not marked processed (its processed table is unchanged), so it is
retried on a later scan. -/
theorem claim_c5_error_aborts_scan (env : PipelineEnv) (d : PdfDoc)
    (rest : List PdfDoc) (s s1 : SysState) (e : Str)
    (herr : process_pdf env d s = (s1, Except.error e)) :
    scan_once env (d :: rest) s = (s1, Except.error e)
    ∧ s1.processed = s.processed
    ∧ s1.objects = s.objects := by
  have hstate := process_pdf_error_state env d s s1 e herr
  refine ⟨?_, hstate.1, hstate.2⟩
  unfold scan_once
  rw [herr]

/-- **C7 (amended)**: the settling loop returns early only when an observed
size repeats; when every pair of observed sizes within the configured number
of checks differs, it exhausts its tries and gives up — and `process_pdf`
discards its result, so the run proceeds identically whatever the
observations: settling delays processing but never prevents it. -/
theorem claim_c7_settling_window (env : PipelineEnv) (d : PdfDoc) (s : SysState)
    (tries : Nat) (obs : Nat → Option Nat)
    (hdistinct : ∀ j, j < tries → ∀ i, i < j → obs i = none ∨ obs i ≠ obs j) :
    wait_for_quiet_file obs tries = false
    ∧ (∀ obs2 : Nat → Option Nat,
        process_pdf env { d with obs := obs2 } s = process_pdf env { d with obs := obs } s) := by
  constructor
  · have hloop : ∀ (t i : Nat) (last : Option Nat),
        (∀ j, j < i + t → ∀ a, a < j → obs a = none ∨ obs a ≠ obs j) →
        (last = none ∨ ∃ a, a < i ∧ obs a = last ∧ last ≠ none) →
        wfqLoop obs t i last = false := by
      intro t
      induction t with
      | zero => intro i last _ _; rfl
      | succ t ih =>
        intro i last hdis hlast
        cases hoi : obs i with
        | none =>
          have hred : wfqLoop obs (t + 1) i last = wfqLoop obs t (i + 1) last := by
            simp only [wfqLoop, hoi]
          rw [hred]
          exact ih (i + 1) last (fun j hj a ha => hdis j (by omega) a ha)
            (by rcases hlast with h | ⟨a, ha, hv, hne⟩
                · exact Or.inl h
                · exact Or.inr ⟨a, by omega, hv, hne⟩)
        | some size =>
          have hne : last ≠ some size := by
            rcases hlast with h | ⟨a, ha, hv, hne0⟩
            · rw [h]; exact fun hc => Option.noConfusion hc
            · intro hc
              rcases hdis i (by omega) a ha with hnone | hdiff
              · exact hne0 (hv.symm.trans hnone)
              · exact hdiff (hv.trans (hc.trans hoi.symm))
          have hred : wfqLoop obs (t + 1) i last
              = if last = some size then true else wfqLoop obs t (i + 1) (some size) := by
            simp only [wfqLoop, hoi]
          rw [hred, if_neg hne]
          exact ih (i + 1) (some size) (fun j hj a ha => hdis j (by omega) a ha)
            (Or.inr ⟨i, by omega, hoi, fun hc => Option.noConfusion hc⟩)
    exact hloop tries 0 none (fun j hj a ha => hdistinct j (by omega) a ha) (Or.inl rfl)
  · intro obs2
    rfl

/-! ## Concrete environment for witnesses and counterexamples -/

/-- A concrete pipeline environment: content is its own hash; extraction fails
on the bytes `BAD` and yields one image object otherwise; metadata is empty. -/
def envW : PipelineEnv where
  hash := fun c => c
  extract := fun c =>
    if c = "BAD".data then Except.error "mutool extract failed".data
    else Except.ok [{ fname := "image1.jpg".data, rel := "d/image1.jpg".data,
                      suffix := ".jpg".data, content := "OBJ".data }]
  meta := fun _ => { sig1 := emptyBlock, sig2 := emptyBlock, sig3 := emptyBlock,
                     sig4 := emptyBlock, author := [], creator := [] }
  font := fun _ => []
  now := "2024-01-01T00:00:00Z".data

/-- The freshly initialized layout: ledger header only, everything else empty. -/
def s0W : SysState where
  objects := [OBJECTS_HEADER]
  processed := []
  hashCount := []
  store := []
  inflight := []
  stamps := []

/-- A well-behaved document. -/
def docW1 : PdfDoc where
  name := "a.pdf".data
  content := "C".data
  present := true
  mtime := 5
  obs := fun _ => none

/-- The same bytes under a different name, mtime and settling behaviour. -/
def docW2 : PdfDoc where
  name := "copy of a.pdf".data
  content := "C".data
  present := true
  mtime := 7
  obs := fun _ => some 3

/-- A document on which the object extractor fails. -/
def badDocW : PdfDoc := ⟨"bad.pdf".data, "BAD".data, true, 0, fun _ => none⟩

/-- A processable document queued after the failing one. -/
def goodDocW : PdfDoc := ⟨"good.pdf".data, "G".data, true, 0, fun _ => none⟩

/-- A document whose observed size grows on every poll and never settles. -/
def growDocW : PdfDoc := ⟨"grow.pdf".data, "W".data, true, 0, fun i => some i⟩

theorem claim_c1_idempotent_reingestion_witness :
    process_pdf envW docW2 (process_pdf envW docW1 s0W).1
      = ((process_pdf envW docW1 s0W).1, Except.ok ())
    ∧ (load_processed_shas (process_pdf envW docW1 s0W).1.processed).count
        (envW.hash docW1.content) = 1 := by
  have h := claim_c1_idempotent_reingestion envW docW1 docW2 s0W
      (process_pdf envW docW1 s0W).1 rfl (by decide) rfl (by decide)
  exact ⟨h.1, h.2.1⟩

theorem claim_c6_inflight_cleared_witness :
    envW.hash docW1.content ∉ (process_pdf envW docW1 s0W).1.inflight :=
  (claim_c6_inflight_cleared envW docW1 s0W (by decide)).1

/-- **C5 (counterexample)**: the claim that a per-document failure never
crashes the scan fails on the code: `scan_once` has no handler, so the
extractor failure on the first document propagates out of the scan and the
second document is never processed (no processed record for its hash). -/
theorem claim_c5_counterexample :
    (scan_once envW [badDocW, goodDocW] s0W).2 = Except.error "mutool extract failed".data
    ∧ (load_processed_shas (scan_once envW [badDocW, goodDocW] s0W).1.processed).count
        (envW.hash goodDocW.content) = 0 := by
  exact ⟨rfl, by decide⟩

theorem claim_c5_error_aborts_scan_witness :
    scan_once envW (badDocW :: [goodDocW]) s0W
      = ((process_pdf envW badDocW s0W).1, Except.error "mutool extract failed".data) :=
  (claim_c5_error_aborts_scan envW badDocW [goodDocW] s0W
      (process_pdf envW badDocW s0W).1 "mutool extract failed".data rfl).1

/-- **C7 (counterexample)**: the claim that a never-settling document is not
processed fails on the code: with sizes that differ on every poll, the
settling loop exhausts its 10 tries (returns without settling) and
`process_pdf` proceeds anyway — the document is hashed, extracted, one ledger
row is appended and its processed record is written. -/
theorem claim_c7_counterexample :
    wait_for_quiet_file growDocW.obs 10 = false
    ∧ (process_pdf envW growDocW s0W).1.processed.length = 1
    ∧ (process_pdf envW growDocW s0W).1.objects.length = 2 := by
  exact ⟨by decide, by decide, by decide⟩

theorem claim_c7_settling_window_witness :
    wait_for_quiet_file (fun i => some i) 10 = false :=
  (claim_c7_settling_window envW growDocW s0W 10 (fun i => some i) (by decide)).1

end PdfHasher
